import Mathlib

/- Shallow embedding of src/wework_doc_crawler.py (class WeWorkDocCrawler).
   Strings are modelled as Lean String / List Char.  The two re.search calls
   that the claims depend on (the frontmatter parser of
   extract_update_time_from_mdx and the character-stripping of
   generate_file_path) are modelled by executable scanners that follow the
   leftmost-match, lazy-quantifier semantics of Python re.  ASCII digits and
   ASCII whitespace stand for their Python character classes. -/

/-- Python regex class backslash-s, restricted to its ASCII members. -/
def pySpace (c : Char) : Bool :=
  c == ' ' || c == '\t' || c == '\n' || c == '\r' || c == '\x0b' || c == '\x0c'

/-- Characters removed by generate_file_path's re.sub character class. -/
def badPathChar (c : Char) : Bool :=
  c == '<' || c == '>' || c == ':' || c == '\x22' || c == '/' || c == '\\' ||
  c == '|' || c == '?' || c == '*'

/-- Boolean test that a list starts with the given pattern. -/
def startsWithL : List Char → List Char → Bool
  | [], _ => true
  | _ :: _, [] => false
  | p :: ps, c :: cs => p == c && startsWithL ps cs

/-- Boolean test that the pattern occurs as a contiguous substring. -/
def containsSub (pat : List Char) : List Char → Bool
  | [] => pat.isEmpty
  | c :: cs => startsWithL pat (c :: cs) || containsSub pat cs

/-- Numeric value of an ASCII digit character. -/
def digitVal (c : Char) : Nat := c.toNat - 48

/-- Value of a list of ASCII digits read in base 10, like Python int(). -/
def digitsVal (l : List Char) : Nat := l.foldl (fun n c => 10 * n + digitVal c) 0

/-- ASCII digit character for a value below ten. -/
def digitChar (n : Nat) : Char := Char.ofNat (48 + n)

/-- Fueled decimal rendering of a natural number (the fuel only serves to
make the recursion structural; natDigits supplies enough of it). -/
def natDigitsGo : Nat → Nat → List Char
  | 0, _ => []
  | fuel + 1, n =>
    if n < 10 then [digitChar n]
    else natDigitsGo fuel (n / 10) ++ [digitChar (n % 10)]

/-- Decimal rendering of a natural number, as Python str() of an int. -/
def natDigits (n : Nat) : List Char := natDigitsGo (n + 1) n

/-- Decimal rendering as a String. -/
def natStr (n : Nat) : String := String.mk (natDigits n)

/-- The literal that the frontmatter parser searches for. -/
def patUT : List Char := "update_time:".toList

/-- The closing-delimiter literal of the frontmatter pattern. -/
def nlDashes : List Char := "\n---".toList

/-- Skip whitespace then read a maximal run of digits: models the regex part
backslash-s star followed by a captured digit group, after the literal. -/
def parseNumAfter (s : List Char) : Option (Nat × List Char) :=
  let s1 := s.dropWhile pySpace
  let ds := s1.takeWhile Char.isDigit
  if ds.isEmpty then none
  else some (digitsVal ds, s1.drop ds.length)

/-- Lazy search for the first occurrence of the update_time literal that is
followed by optional whitespace, digits, and a later newline-dashes
delimiter; returns the digits' value, as the regex group would. -/
def findUT : List Char → Option Nat
  | [] => none
  | c :: cs =>
    if startsWithL patUT (c :: cs) then
      match parseNumAfter ((c :: cs).drop patUT.length) with
      | some (n, rest) => if containsSub nlDashes rest then some n else findUT cs
      | none => findUT cs
    else findUT cs

/-- Attempt of the whole frontmatter pattern at one candidate start: three
dashes, whitespace containing a newline, then the lazy update_time search. -/
def matchFrom (s : List Char) : Option Nat :=
  if startsWithL ("---".toList) s then
    let r := s.drop 3
    let ws := r.takeWhile pySpace
    if ws.contains '\n' then findUT (r.drop ws.length) else none
  else none

/-- Scan of all candidate match starts (string start, and every position
following a newline, as the MULTILINE caret demands), left to right. -/
def extractScan : Bool → List Char → Option Nat
  | atStart, [] => if atStart then matchFrom [] else none
  | atStart, c :: cs =>
    if atStart then
      match matchFrom (c :: cs) with
      | some n => some n
      | none => extractScan (c == '\n') cs
    else extractScan (c == '\n') cs

/-- Model of WeWorkDocCrawler.extract_update_time_from_mdx: parse the given
file content with the frontmatter regex; any failure yields none. -/
def extract_update_time_from_mdx (content : String) : Option Nat :=
  extractScan true content.toList

/-- Model of WeWorkDocCrawler.md_to_mdx.  The wall-clock string produced by
time.strftime is passed in as the generated_at argument. -/
def md_to_mdx (markdown_content title : String) (category_id : Nat)
    (update_time : Nat) (generated_at : String) : String :=
  if markdown_content = "" then ("# ") ++ title ++ ("\n\n*No content available*\n")
  else
    ("---\ntitle: \x22") ++ title ++ ("\x22\ngenerated_at: \x22") ++ generated_at ++
    ("\x22\nupdate_time: ") ++ natStr update_time ++
    ("\nsource: \x22https://developer.work.weixin.qq.com/document/path/") ++
    natStr category_id ++ ("\x22\n---\n\n") ++ markdown_content

/-- Characters that time.strftime with this program's format can emit. -/
def timestampLike (s : String) : Bool :=
  s.toList.all (fun c => c.isDigit || c == '-' || c == ':' || c == ' ')

/-- Python str.strip() on a list of characters. -/
def stripPy (l : List Char) : List Char :=
  ((l.dropWhile pySpace).reverse.dropWhile pySpace).reverse

/-- One path component after re.sub removal of bad characters and strip. -/
def sanitizeComponent (s : String) : String :=
  String.mk (stripPy (s.toList.filter (fun c => !badPathChar c)))

/-- Model of WeWorkDocCrawler.generate_file_path.  The result is the list of
path components below the output root (self.output_dir); pathlib drops
empty and single-dot components when the Path is assembled, which the
filter reproduces.  The leaf component gains the .mdx extension. -/
def generate_file_path (category_path : List String) (title : String) : List String :=
  ((category_path.map sanitizeComponent).filter
      (fun c => !(c == "") && !(c == "."))) ++
    [sanitizeComponent title ++ (".mdx")]

/-- Modelled from the claim's words: a relative component list escapes the
output root iff, reading left to right, a dot-dot component appears when
the current depth below the root is zero.  Components equal to empty or a
single dot never reach this function (generate_file_path drops them). -/
def escapesAux : List String → Nat → Bool
  | [], _ => false
  | c :: cs, d =>
    if c = ".." then (if d = 0 then true else escapesAux cs (d - 1))
    else escapesAux cs (d + 1)

/-- A generated path resolves outside the output root. -/
def escapesRoot (comps : List String) : Bool := escapesAux comps 0

/-- One entry of the flat categories list (a Python dict).  Fields accessed
by the source with a get-and-default carry that default here (parent_id,
doc_id and the remote timestamp key named time all default to 0); the id
key is read by plain subscription in build_category_tree and may be
absent, hence an Option. -/
structure CategoryRecord where
  id : Option Nat
  category_id : Nat
  parent_id : Nat
  title : String
  doc_id : Nat
  time : Nat
deriving DecidableEq, Repr

/-- The tree of build_category_tree: a mapping in insertion order from a
category_id key to a node holding a category and a child mapping.  The
cons constructor carries the key, the node's category, the node's child
forest, and the remaining siblings. -/
inductive Forest where
  | nil : Forest
  | cons (key : Nat) (category : CategoryRecord) (children : Forest) (rest : Forest) : Forest
deriving DecidableEq, Repr

/-- Python dict assignment of a fresh leaf node at a key: replace in place
when the key exists, append otherwise. -/
def setNode : Forest → Nat → CategoryRecord → Forest
  | .nil, i, cat => .cons i cat .nil .nil
  | .cons k c ch rest, i, cat =>
    if k = i then .cons k cat .nil rest
    else .cons k c ch (setNode rest i cat)

/-- Model of WeWorkDocCrawler._add_to_tree: scan the sibling mapping; on a
key equal to parent_id insert the category as a fresh child there and stop
scanning these siblings; otherwise recurse into that node's children and
continue with the remaining siblings. -/
def addToTree : Forest → Nat → CategoryRecord → Forest
  | .nil, _, _ => .nil
  | .cons k c ch rest, pid, cat =>
    if k = pid then .cons k c (setNode ch cat.category_id cat) rest
    else .cons k c (addToTree ch pid cat) (addToTree rest pid cat)

/-- The loop body of build_category_tree over the flat list. -/
def buildLoop : List CategoryRecord → Forest → Forest
  | [], t => t
  | cat :: rest, t =>
    buildLoop rest
      (if cat.parent_id = 0 then setNode t cat.category_id cat
       else addToTree t cat.parent_id cat)

/-- Model of WeWorkDocCrawler.build_category_tree.  The first line of the
source builds cat_map as a dict comprehension over the id key of every
record; a record without that key raises KeyError there, before any tree
node is made, and cat_map is never read afterwards.  The guard models
exactly that raise; the loop never consults the id field. -/
def build_category_tree (categories : List CategoryRecord) : Except String Forest :=
  if categories.all (fun c => c.id.isSome) then
    .ok (buildLoop categories .nil)
  else .error ("KeyError: id")

/-- Outcome of the fetch_document_content call for one doc_id: a raised
request exception, a JSON body without a truthy data payload, or a data
payload with an optional title and the content_md string (absent
content_md defaults to the empty string via get). -/
inductive FetchOutcome where
  | err : FetchOutcome
  | noData : FetchOutcome
  | ok (title : Option String) (content_md : String) : FetchOutcome
deriving DecidableEq, Repr

/-- The local output tree: an association-in-insertion-order from the path
below the output root (a component list) to the written file content. -/
def lookupFile : List (List String × String) → List String → Option String
  | [], _ => none
  | (k, v) :: rest, p => if k = p then some v else lookupFile rest p

/-- Write (create or overwrite) a file at a path. -/
def writeFile : List (List String × String) → List String → String → List (List String × String)
  | [], p, v => [(p, v)]
  | (k, w) :: rest, p, v =>
    if k = p then (p, v) :: rest else (k, w) :: writeFile rest p v

/-- State threaded through the traversal: the files below the output root,
and the doc_ids for which a network fetch was issued, in order. -/
structure CrawlState where
  fs : List (List String × String)
  fetched : List Nat
deriving DecidableEq, Repr

/-- The decision of crawl_tree's freshness check: fetch unless the file
exists and its parsed update_time is at least the remote one. -/
def needsFetch (fs : List (List String × String)) (fp : List String) (remoteTime : Nat) : Bool :=
  match lookupFile fs fp with
  | none => true
  | some content =>
    match extract_update_time_from_mdx content with
    | none => true
    | some l => decide (l < remoteTime)

/-- The leaf-document part of one crawl_tree loop iteration: when doc_id is
positive and the freshness check demands it, fetch, then either abort the
run (exception carries the state at that moment) or convert and save. -/
def processLeaf (remote : Nat → FetchOutcome) (gen : String) (cat : CategoryRecord)
    (path : List String) (st : CrawlState) : Except (String × CrawlState) CrawlState :=
  if 0 < cat.doc_id then
    let fp := generate_file_path path cat.title
    if needsFetch st.fs fp cat.time then
      let st1 : CrawlState := ⟨st.fs, st.fetched ++ [cat.doc_id]⟩
      match remote cat.doc_id with
      | .err => .error (("request exception"), st1)
      | .noData => .error (("No data found in the response"), st1)
      | .ok topt body =>
        .ok ⟨writeFile st.fs fp
              (md_to_mdx body (topt.getD cat.title) cat.category_id cat.time gen), st1.fetched⟩
    else .ok st
  else .ok st

/-- Model of WeWorkDocCrawler.crawl_tree.  For each node in order: handle a
leaf document, then recurse into the node's children with the path
extended by the node's title, then continue with the remaining siblings.
An uncaught exception aborts the whole traversal.  The remote collaborator
and the strftime string are passed explicitly; save_document always
succeeds here (a write failure is logged and skipped by the source, and
every claim about writes assumes they succeed). -/
def crawl_tree (remote : Nat → FetchOutcome) (gen : String) :
    Forest → List String → CrawlState → Except (String × CrawlState) CrawlState
  | .nil, _, st => .ok st
  | .cons _ cat ch rest, path, st =>
    match processLeaf remote gen cat path st with
    | .error e => .error e
    | .ok st1 =>
      match crawl_tree remote gen ch (path ++ [cat.title]) st1 with
      | .error e => .error e
      | .ok st2 => crawl_tree remote gen rest path st2

/-- Append of two sibling lists, for stating run-prefix properties. -/
def fappend : Forest → Forest → Forest
  | .nil, g => g
  | .cons k c ch rest, g => .cons k c ch (fappend rest g)

/-- Every node of the forest, paired with the ancestor-title path that
crawl_tree would carry when reaching it. -/
def leafList : Forest → List String → List (List String × CategoryRecord)
  | .nil, _ => []
  | .cons _ cat ch rest, path =>
    (path, cat) :: (leafList ch (path ++ [cat.title]) ++ leafList rest path)

/-- All titles of the forest avoid the update_time literal. -/
def titlesClean : Forest → Bool
  | .nil => true
  | .cons _ cat ch rest =>
    !containsSub patUT cat.title.toList && titlesClean ch && titlesClean rest

/-- Categories of the forest tagged with the key of their parent node (none
at a root), flattened in traversal order.  This is the observable shape of
the forest: a record sits at the position implied by its parent chain iff
its tag is its own parent_id field. -/
def nodesWithParent : Forest → Option Nat → List (CategoryRecord × Option Nat)
  | .nil, _ => []
  | .cons _ cat ch rest, pk =>
    (cat, pk) :: (nodesWithParent ch (some cat.category_id) ++ nodesWithParent rest pk)

/-- All keys occurring in the forest, root and nested alike. -/
def treeIds : Forest → List Nat
  | .nil => []
  | .cons k _ ch rest => k :: (treeIds ch ++ treeIds rest)

/-- Every key of the forest equals the category_id of the node it maps to
(build_category_tree only ever inserts nodes this way). -/
def wellKeyed : Forest → Bool
  | .nil => true
  | .cons k cat ch rest => k == cat.category_id && wellKeyed ch && wellKeyed rest

/-- The hypothesis of the tree-correctness claim, read off the flat list in
order: every record is a root or names an already-enumerated record's
category_id as its parent. -/
def parentsBeforeB (seen : List Nat) : List CategoryRecord → Bool
  | [] => true
  | r :: rest =>
    (r.parent_id == 0 || decide (r.parent_id ∈ seen)) &&
    parentsBeforeB (r.category_id :: seen) rest

/- Helper lemmas about the decimal rendering. -/

lemma natDigitsGo_stable (n : Nat) : ∀ f, n < f → natDigitsGo f n = natDigits n := by
  induction n using Nat.strong_induction_on with
  | _ n ih =>
    intro f hf
    obtain ⟨g, rfl⟩ : ∃ g, f = g + 1 := ⟨f - 1, by omega⟩
    by_cases h10 : n < 10
    · simp [natDigitsGo, natDigits, h10]
    · have hdiv : n / 10 < n := Nat.div_lt_self (by omega) (by omega)
      have h1 : natDigitsGo g (n / 10) = natDigits (n / 10) := ih _ hdiv _ (by omega)
      have h2 : natDigitsGo n (n / 10) = natDigits (n / 10) := ih _ hdiv _ (by omega)
      simp [natDigits, natDigitsGo, h10, h1, h2]

lemma natDigits_of_ge (n : Nat) (h : ¬n < 10) :
    natDigits n = natDigits (n / 10) ++ [digitChar (n % 10)] := by
  have hdiv : n / 10 < n := Nat.div_lt_self (by omega) (by omega)
  have := natDigitsGo_stable (n / 10) n hdiv
  simp [natDigits, natDigitsGo, h, this]

lemma natDigits_ne_nil (n : Nat) : natDigits n ≠ [] := by
  by_cases h10 : n < 10
  · simp [natDigits, natDigitsGo, h10]
  · rw [natDigits_of_ge n h10]
    exact List.append_ne_nil_of_right_ne_nil _ (by simp)

lemma digitChar_isDigit (n : Nat) (h : n < 10) : (digitChar n).isDigit = true := by
  interval_cases n <;> decide

lemma digitVal_digitChar (n : Nat) (h : n < 10) : digitVal (digitChar n) = n := by
  interval_cases n <;> decide

lemma natDigits_all_digit (n : Nat) : ∀ c ∈ natDigits n, c.isDigit = true := by
  induction n using Nat.strong_induction_on with
  | _ n ih =>
    by_cases h10 : n < 10
    · simp only [natDigits, natDigitsGo, if_pos h10]
      intro c hc
      rw [List.mem_singleton] at hc
      subst hc
      exact digitChar_isDigit n h10
    · rw [natDigits_of_ge n h10]
      intro c hc
      rcases List.mem_append.mp hc with h | h
      · exact ih (n / 10) (Nat.div_lt_self (by omega) (by omega)) c h
      · rw [List.mem_singleton] at h
        subst h
        exact digitChar_isDigit _ (Nat.mod_lt _ (by omega))

lemma digitsVal_append_singleton (l : List Char) (c : Char) :
    digitsVal (l ++ [c]) = 10 * digitsVal l + digitVal c := by
  simp [digitsVal, List.foldl_append]

lemma digitsVal_natDigits (n : Nat) : digitsVal (natDigits n) = n := by
  induction n using Nat.strong_induction_on with
  | _ n ih =>
    by_cases h10 : n < 10
    · simp only [natDigits, natDigitsGo, if_pos h10]
      have : digitsVal [digitChar n] = digitVal (digitChar n) := by
        simp [digitsVal]
      rw [this, digitVal_digitChar n h10]
    · rw [natDigits_of_ge n h10, digitsVal_append_singleton,
        ih (n / 10) (Nat.div_lt_self (by omega) (by omega)),
        digitVal_digitChar _ (Nat.mod_lt _ (by omega))]
      omega

/- Helper lemmas about characters. -/

lemma isDigit_val (c : Char) (h : c.isDigit = true) : 48 ≤ c.toNat ∧ c.toNat ≤ 57 := by
  simp only [Char.isDigit, Bool.and_eq_true, decide_eq_true_eq] at h
  exact ⟨h.1, h.2⟩

lemma pySpace_false_of_isDigit (c : Char) (h : c.isDigit = true) : pySpace c = false := by
  unfold pySpace
  by_contra hb
  rw [Bool.not_eq_false] at hb
  simp only [Bool.or_eq_true, beq_iff_eq] at hb
  rcases hb with ((((rfl | rfl) | rfl) | rfl) | rfl) | rfl <;> exact absurd h (by decide)

lemma ne_u_of_isDigit (c : Char) (h : c.isDigit = true) : c ≠ 'u' := by
  rintro rfl
  exact absurd h (by decide)

lemma isDigit_false_of_pySpace (c : Char) (h : pySpace c = true) : c.isDigit = false := by
  simp only [pySpace, Bool.or_eq_true, beq_iff_eq] at h
  rcases h with ((((rfl | rfl) | rfl) | rfl) | rfl) | rfl <;> decide

lemma timestampLike_ne_u (s : String) (h : timestampLike s = true) :
    ∀ c ∈ s.toList, c ≠ 'u' := by
  intro c hc
  have := (List.all_eq_true.mp h) c hc
  simp only [Bool.or_eq_true, beq_iff_eq] at this
  rcases this with ((hd | rfl) | rfl) | rfl
  · exact ne_u_of_isDigit c hd
  all_goals decide

/- Helper lemmas about substring scanning. -/

lemma startsWithL_iff (p : List Char) : ∀ l, startsWithL p l = true ↔ ∃ t, l = p ++ t := by
  induction p with
  | nil => intro l; simp [startsWithL]
  | cons c ps ih =>
    intro l
    cases l with
    | nil => simp [startsWithL]
    | cons d ds =>
      simp only [startsWithL, Bool.and_eq_true, beq_iff_eq, ih ds]
      constructor
      · rintro ⟨rfl, t, rfl⟩
        exact ⟨t, rfl⟩
      · rintro ⟨t, h⟩
        rw [List.cons_append] at h
        cases h
        exact ⟨rfl, t, rfl⟩

lemma startsWithL_self_append (p t : List Char) : startsWithL p (p ++ t) = true :=
  (startsWithL_iff p _).mpr ⟨t, rfl⟩

lemma startsWithL_cons_false (c : Char) (ps : List Char) (d : Char) (ds : List Char)
    (h : c ≠ d) : startsWithL (c :: ps) (d :: ds) = false := by
  simp [startsWithL, h]

lemma startsWithL_append_of_le (p : List Char) :
    ∀ a b, startsWithL p (a ++ b) = true → p.length ≤ a.length → startsWithL p a = true := by
  induction p with
  | nil => intro a b _ _; simp [startsWithL]
  | cons c ps ih =>
    intro a b h hl
    cases a with
    | nil => simp at hl
    | cons x xs =>
      rw [List.cons_append] at h
      simp only [startsWithL, Bool.and_eq_true] at h ⊢
      exact ⟨h.1, ih xs b h.2 (by simpa using hl)⟩

lemma startsWithL_straddle (p : List Char) :
    ∀ a b q, startsWithL p (a ++ b) = true → a.length < p.length →
      b.head? = some q → q ∈ p := by
  induction p with
  | nil => intro a b q _ hl _; simp at hl
  | cons c ps ih =>
    intro a b q h hl hq
    cases a with
    | nil =>
      cases b with
      | nil => simp at hq
      | cons y ys =>
        rw [List.head?_cons, Option.some_inj] at hq
        subst hq
        simp only [List.nil_append, startsWithL, Bool.and_eq_true, beq_iff_eq] at h
        exact h.1 ▸ List.mem_cons_self _ _
    | cons x xs =>
      rw [List.cons_append] at h
      simp only [startsWithL, Bool.and_eq_true] at h
      exact List.mem_cons_of_mem _ (ih xs b q h.2 (by simpa using hl) hq)

lemma containsSub_append_right (p a b : List Char) (h : containsSub p b = true) :
    containsSub p (a ++ b) = true := by
  induction a with
  | nil => simpa using h
  | cons x xs ih =>
    rw [List.cons_append]
    simp only [containsSub, Bool.or_eq_true]
    exact Or.inr ih

lemma containsSub_of_startsWith_drop (p : List Char) :
    ∀ (l : List Char) (i : Nat), startsWithL p (l.drop i) = true → p ≠ [] →
      containsSub p l = true := by
  intro l
  induction l with
  | nil =>
    intro i h hp
    rw [List.drop_nil] at h
    rcases (startsWithL_iff p []).mp h with ⟨t, ht⟩
    cases p with
    | nil => exact absurd rfl hp
    | cons c cs => simp at ht
  | cons x xs ih =>
    intro i h hp
    cases i with
    | zero =>
      simp only [containsSub, Bool.or_eq_true]
      exact Or.inl (by simpa using h)
    | succ j =>
      simp only [containsSub, Bool.or_eq_true]
      exact Or.inr (ih j (by simpa using h) hp)

/-- No occurrence of the update_time literal starts inside the first list. -/
def noStartIn (xs ys : List Char) : Prop :=
  ∀ i, i < xs.length → startsWithL patUT ((xs ++ ys).drop i) = false

lemma startsWithL_patUT_cons_ne_u (c : Char) (l : List Char) (h : c ≠ 'u') :
    startsWithL patUT (c :: l) = false := by
  have hp : patUT = 'u' :: ("pdate_time:").toList := by decide
  rw [hp]
  exact startsWithL_cons_false _ _ _ _ (fun h' => h (h' ▸ rfl))

lemma noStartIn_of_ne_u (xs : List Char) (hx : ∀ c ∈ xs, c ≠ 'u') :
    ∀ ys, noStartIn xs ys := by
  induction xs with
  | nil => intro ys i hi; simp at hi
  | cons c cs ih =>
    intro ys i hi
    cases i with
    | zero =>
      rw [List.cons_append, List.drop_zero]
      exact startsWithL_patUT_cons_ne_u c _ (hx c (List.mem_cons_self _ _))
    | succ j =>
      rw [List.cons_append, List.drop_succ_cons]
      exact ih (fun d hd => hx d (List.mem_cons_of_mem _ hd)) ys j (by simpa using hi)

lemma noStartIn_of_clean (title ys : List Char)
    (hclean : containsSub patUT title = false)
    (hq : ∃ q bs, ys = q :: bs ∧ q ∉ patUT) : noStartIn title ys := by
  intro i hi
  by_contra hb
  rw [Bool.not_eq_false] at hb
  rw [List.drop_append_of_le_length (Nat.le_of_lt hi)] at hb
  rcases hq with ⟨q, bs, rfl, hqmem⟩
  have hlen : 0 < (title.drop i).length := by
    rw [List.length_drop]
    omega
  by_cases hc : patUT.length ≤ (title.drop i).length
  · have h1 : startsWithL patUT (title.drop i) = true :=
      startsWithL_append_of_le patUT _ _ hb hc
    have h2 : containsSub patUT title = true :=
      containsSub_of_startsWith_drop patUT title i h1 (by decide)
    rw [h2] at hclean
    exact absurd hclean (by simp)
  · exact hqmem (startsWithL_straddle patUT _ _ q hb (by omega) rfl)

lemma noStartIn_append (a b ys : List Char)
    (ha : noStartIn a (b ++ ys)) (hb : noStartIn b ys) : noStartIn (a ++ b) ys := by
  intro i hi
  rw [List.append_assoc]
  by_cases hcase : i < a.length
  · exact ha i hcase
  · have : ∃ j, i = a.length + j := ⟨i - a.length, by omega⟩
    rcases this with ⟨j, rfl⟩
    rw [List.drop_append]
    have : j < b.length := by
      rw [List.length_append] at hi
      omega
    exact hb j this

lemma findUT_append_of_noStart (xs : List Char) :
    ∀ ys, noStartIn xs ys → findUT (xs ++ ys) = findUT ys := by
  induction xs with
  | nil => intro ys _; rfl
  | cons c cs ih =>
    intro ys h
    have h0 : startsWithL patUT (c :: (cs ++ ys)) = false := by
      have := h 0 (by simp)
      simpa using this
    rw [List.cons_append]
    show findUT (c :: (cs ++ ys)) = findUT ys
    rw [findUT]
    rw [h0]
    simp only [Bool.false_eq_true, if_false]
    exact ih ys (fun i hi => by
      have := h (i + 1) (by simpa using Nat.succ_lt_succ hi)
      simpa using this)

lemma takeWhile_all_append (p : Char → Bool) (l1 l2 : List Char)
    (h1 : ∀ c ∈ l1, p c = true) (h2 : ∀ c, l2.head? = some c → p c = false) :
    (l1 ++ l2).takeWhile p = l1 := by
  induction l1 with
  | nil =>
    cases l2 with
    | nil => rfl
    | cons c cs =>
      simp only [List.nil_append]
      exact List.takeWhile_cons_of_neg (by simp [h2 c rfl])
  | cons x xs ih =>
    rw [List.cons_append, List.takeWhile_cons_of_pos (h1 x (List.mem_cons_self _ _))]
    rw [ih (fun c hc => h1 c (List.mem_cons_of_mem _ hc))]

lemma findUT_cons_pos (c : Char) (cs : List Char)
    (h : startsWithL patUT (c :: cs) = true) :
    findUT (c :: cs) =
      match parseNumAfter ((c :: cs).drop patUT.length) with
      | some (n, rest) => if containsSub nlDashes rest then some n else findUT cs
      | none => findUT cs := by
  rw [findUT, h]
  simp

lemma findUT_self (r : List Char) (n : Nat) (rest : List Char)
    (hr : parseNumAfter r = some (n, rest)) (hc : containsSub nlDashes rest = true) :
    findUT (patUT ++ r) = some n := by
  have hys : patUT ++ r = 'u' :: (("pdate_time:").toList ++ r) := by
    rw [show patUT = 'u' :: ("pdate_time:").toList from by decide]
    rfl
  have hs : startsWithL patUT ('u' :: (("pdate_time:").toList ++ r)) = true := by
    rw [← hys]
    exact startsWithL_self_append _ _
  have hdrop : ('u' :: (("pdate_time:").toList ++ r)).drop patUT.length = r := by
    rw [← hys]
    exact List.drop_left _ _
  rw [hys, findUT_cons_pos _ _ hs, hdrop, hr]
  simp [hc]

lemma parseNumAfter_digits (T : Nat) (zs : List Char)
    (hz : ∀ c, zs.head? = some c → c.isDigit = false) :
    parseNumAfter (' ' :: (natDigits T ++ zs)) = some (T, zs) := by
  have hnd := natDigits_all_digit T
  have hne := natDigits_ne_nil T
  unfold parseNumAfter
  have hdw : (' ' :: (natDigits T ++ zs)).dropWhile pySpace = natDigits T ++ zs := by
    rw [List.dropWhile_cons_of_pos (by decide)]
    cases hcase : natDigits T with
    | nil => exact absurd hcase hne
    | cons d ds =>
      have hd : pySpace d = false :=
        pySpace_false_of_isDigit d (hnd d (by rw [hcase]; exact List.mem_cons_self _ _))
      rw [List.cons_append]
      exact List.dropWhile_cons_of_neg (by simp [hd])
  have htw : (natDigits T ++ zs).takeWhile Char.isDigit = natDigits T :=
    takeWhile_all_append _ _ _ hnd hz
  simp only [hdw, htw]
  rw [if_neg (by simp [hne]), digitsVal_natDigits, List.drop_left]

lemma md_to_mdx_toList (body title gen : String) (cid T : Nat) (hb : ¬body = "") :
    (md_to_mdx body title cid T gen).toList =
      ("---\ntitle: \x22").toList ++ (title.toList ++ (("\x22\ngenerated_at: \x22").toList ++
        (gen.toList ++ (("\x22\nupdate_time: ").toList ++ (natDigits T ++
        (("\nsource: \x22https://developer.work.weixin.qq.com/document/path/").toList ++
        (natDigits cid ++ (("\x22\n---\n\n").toList ++ body.toList)))))))) := by
  rw [md_to_mdx, if_neg hb]
  simp only [String.toList, String.data_append, natStr, List.append_assoc]

lemma extractScan_start_cons (c : Char) (cs : List Char) (n : Nat)
    (h : matchFrom (c :: cs) = some n) : extractScan true (c :: cs) = some n := by
  rw [extractScan, if_pos rfl, h]

lemma matchFrom_header (m : List Char) :
    matchFrom ('-' :: '-' :: '-' :: '\n' :: 't' ::m) = findUT ('t' ::m) := by
  have hsw : startsWithL (("---").toList) ('-' :: '-' :: '-' :: '\n' :: 't' ::m) = true := by
    rw [show ("---").toList = ['-','-','-'] from rfl]
    simp [startsWithL]
  have h2 : List.takeWhile pySpace ('\n' :: 't' ::m) = ['\n'] := by
    rw [List.takeWhile_cons_of_pos (by decide), List.takeWhile_cons_of_neg (by decide)]
  simp only [matchFrom, hsw, if_true]
  rw [show List.drop 3 ('-' :: '-' :: '-' :: '\n' :: 't' ::m) = '\n' :: 't' ::m from rfl, h2]
  rw [if_pos (by decide)]
  rfl

lemma extract_core (t g b : List Char) (T cid : Nat)
    (ht : containsSub patUT t = false) (hg : ∀ c ∈ g, c ≠ 'u') :
    extractScan true
      ('-' :: '-' :: '-' :: '\n' :: 't' ::(("itle: \x22").toList ++
        (t ++ (("\x22\ngenerated_at: \x22").toList ++
        (g ++ ('\x22' :: '\n' ::(patUT ++
        (' ' ::(natDigits T ++
        ('\n' ::(("source: \x22https://developer.work.weixin.qq.com/document/path/").toList ++
        (natDigits cid ++
        ('\x22' :: '\n' :: '-' :: '-' :: '-' :: '\n' :: '\n' ::b))))))))))))) = some T := by
  apply extractScan_start_cons
  rw [matchFrom_header]
  have hsplit :
      't' ::(("itle: \x22").toList ++
        (t ++ (("\x22\ngenerated_at: \x22").toList ++
        (g ++ ('\x22' :: '\n' ::(patUT ++
        (' ' ::(natDigits T ++
        ('\n' ::(("source: \x22https://developer.work.weixin.qq.com/document/path/").toList ++
        (natDigits cid ++
        ('\x22' :: '\n' :: '-' :: '-' :: '-' :: '\n' :: '\n' ::b)))))))))))) =
      (('t' ::("itle: \x22").toList) ++
        (t ++ (("\x22\ngenerated_at: \x22").toList ++ (g ++ ['\x22', '\n'])))) ++
      (patUT ++
        (' ' ::(natDigits T ++
        ('\n' ::(("source: \x22https://developer.work.weixin.qq.com/document/path/").toList ++
        (natDigits cid ++
        ('\x22' :: '\n' :: '-' :: '-' :: '-' :: '\n' :: '\n' ::b))))))) := by
    simp [List.append_assoc, List.cons_append]
  rw [hsplit]
  have hno : noStartIn
      (('t' ::("itle: \x22").toList) ++
        (t ++ (("\x22\ngenerated_at: \x22").toList ++ (g ++ ['\x22', '\n']))))
      (patUT ++
        (' ' ::(natDigits T ++
        ('\n' ::(("source: \x22https://developer.work.weixin.qq.com/document/path/").toList ++
        (natDigits cid ++
        ('\x22' :: '\n' :: '-' :: '-' :: '-' :: '\n' :: '\n' ::b))))))) := by
    apply noStartIn_append
    · exact noStartIn_of_ne_u _ (by decide) _
    · apply noStartIn_append
      · apply noStartIn_of_clean _ _ ht
        refine ⟨'\x22', ("\ngenerated_at: \x22").toList ++ (g ++ (['\x22', '\n'] ++
          (patUT ++ (' ' ::(natDigits T ++
          ('\n' ::(("source: \x22https://developer.work.weixin.qq.com/document/path/").toList ++
          (natDigits cid ++ ('\x22' :: '\n' :: '-' :: '-' :: '-' :: '\n' :: '\n' ::b))))))))), ?_, by decide⟩
        rw [show ("\x22\ngenerated_at: \x22").toList =
          '\x22' ::("\ngenerated_at: \x22").toList from rfl]
        simp [List.append_assoc]
      · apply noStartIn_append
        · exact noStartIn_of_ne_u _ (by decide) _
        · apply noStartIn_append
          · exact noStartIn_of_ne_u _ (fun c hc => hg c hc) _
          · exact noStartIn_of_ne_u _ (by decide) _
  rw [findUT_append_of_noStart _ _ hno]
  have hpn : parseNumAfter
      (' ' ::(natDigits T ++
        ('\n' ::(("source: \x22https://developer.work.weixin.qq.com/document/path/").toList ++
        (natDigits cid ++ ('\x22' :: '\n' :: '-' :: '-' :: '-' :: '\n' :: '\n' ::b)))))) =
      some (T, '\n' ::(("source: \x22https://developer.work.weixin.qq.com/document/path/").toList ++
        (natDigits cid ++ ('\x22' :: '\n' :: '-' :: '-' :: '-' :: '\n' :: '\n' ::b)))) := by
    apply parseNumAfter_digits
    intro c hc
    rw [List.head?_cons, Option.some_inj] at hc
    subst hc
    decide
  have hcs : containsSub nlDashes
      ('\n' ::(("source: \x22https://developer.work.weixin.qq.com/document/path/").toList ++
        (natDigits cid ++ ('\x22' :: '\n' :: '-' :: '-' :: '-' :: '\n' :: '\n' ::b)))) = true := by
    have hshape :
        '\n' ::(("source: \x22https://developer.work.weixin.qq.com/document/path/").toList ++
          (natDigits cid ++ ('\x22' :: '\n' :: '-' :: '-' :: '-' :: '\n' :: '\n' ::b))) =
        ('\n' ::("source: \x22https://developer.work.weixin.qq.com/document/path/").toList) ++
          (natDigits cid ++ (('\x22' :: '\n' :: '-' :: '-' :: '-' :: '\n' :: '\n' ::[]) ++ b)) := by
      simp [List.append_assoc, List.cons_append]
    rw [hshape]
    apply containsSub_append_right
    apply containsSub_append_right
    have hn : nlDashes = '\n' :: '-' :: '-' :: '-' ::[] := by decide
    simp [containsSub, startsWithL, hn]
  exact findUT_self _ T _ hpn hcs

/-- Round-trip of the artifact header: an artifact written with a nonempty
body, a title free of the update_time literal, and a strftime-shaped
generated_at string parses back to exactly the written update_time. -/
lemma extract_mdx_roundtrip (body title gen : String) (cid T : Nat)
    (hb : ¬body = "") (ht : containsSub patUT title.toList = false)
    (hg : timestampLike gen = true) :
    extract_update_time_from_mdx (md_to_mdx body title cid T gen) = some T := by
  unfold extract_update_time_from_mdx
  rw [md_to_mdx_toList body title gen cid T hb]
  rw [show ("---\ntitle: \x22").toList = '-' :: '-' :: '-' :: '\n' :: 't' ::("itle: \x22").toList
    from rfl]
  rw [show ("\x22\nupdate_time: ").toList = '\x22' :: '\n' ::(patUT ++ [' ']) from by decide]
  rw [show ("\nsource: \x22https://developer.work.weixin.qq.com/document/path/").toList =
    '\n' ::("source: \x22https://developer.work.weixin.qq.com/document/path/").toList
    from rfl]
  rw [show ("\x22\n---\n\n").toList = '\x22' :: '\n' :: '-' :: '-' :: '-' :: '\n' :: '\n' ::([] : List Char)
    from by decide]
  have hcore := extract_core title.toList gen.toList body.toList T cid ht
    (timestampLike_ne_u gen hg)
  rw [← hcore]
  congr 1

lemma extractScan_false_cons (c : Char) (cs : List Char) :
    extractScan false (c :: cs) = extractScan (c == '\n') cs := by
  rw [extractScan]
  simp

lemma extractScan_false_append (l rest : List Char) (h : '\n' ∉ l) :
    extractScan false (l ++ rest) = extractScan false rest := by
  induction l with
  | nil => rfl
  | cons c cs ih =>
    rw [List.cons_append, extractScan_false_cons]
    have hc : (c == '\n') = false := by
      simp only [beq_eq_false_iff_ne, ne_eq]
      intro hcc
      exact h (hcc ▸ List.mem_cons_self _ _)
    rw [hc]
    exact ih (fun hm => h (List.mem_cons_of_mem _ hm))

lemma matchFrom_not_dash (c : Char) (l : List Char) (h : c ≠ '-') :
    matchFrom (c :: l) = none := by
  unfold matchFrom
  rw [show ("---").toList = ['-','-','-'] from rfl]
  rw [startsWithL_cons_false _ _ _ _ (fun he => h he.symm)]
  simp

/-- The content written for an empty body carries no parseable header, as
long as the title stays on one line. -/
lemma extract_placeholder_none (title : String) (hnl : '\n' ∉ title.toList) :
    extract_update_time_from_mdx (("# ") ++ title ++ ("\n\n*No content available*\n")) =
      none := by
  unfold extract_update_time_from_mdx
  have hsh : (("# ") ++ title ++ ("\n\n*No content available*\n")).toList =
      '#' :: ' ' ::(title.toList ++ ("\n\n*No content available*\n").toList) := by
    simp [String.toList, String.data_append, List.append_assoc]
  rw [hsh]
  rw [extractScan, if_pos rfl, matchFrom_not_dash _ _ (by decide)]
  rw [show (('#' : Char) == '\n') = false from by decide]
  rw [extractScan_false_cons, show ((' ' : Char) == '\n') = false from by decide]
  rw [extractScan_false_append _ _ hnl]
  decide

/- Path sanitization lemmas. -/

lemma mem_of_mem_dropWhile (p : Char → Bool) (l : List Char) (c : Char)
    (h : c ∈ l.dropWhile p) : c ∈ l := by
  induction l with
  | nil => simp at h
  | cons x xs ih =>
    by_cases hx : p x = true
    · rw [List.dropWhile_cons_of_pos hx] at h
      exact List.mem_cons_of_mem _ (ih h)
    · rw [List.dropWhile_cons_of_neg hx] at h
      exact h

lemma mem_of_mem_stripPy (l : List Char) (c : Char) (h : c ∈ stripPy l) : c ∈ l := by
  unfold stripPy at h
  rw [List.mem_reverse] at h
  have h1 := mem_of_mem_dropWhile _ _ _ h
  rw [List.mem_reverse] at h1
  exact mem_of_mem_dropWhile _ _ _ h1

lemma sanitizeComponent_no_bad (s : String) :
    ∀ c ∈ (sanitizeComponent s).toList, badPathChar c = false := by
  intro c hc
  have h1 : c ∈ stripPy (s.toList.filter (fun c => !badPathChar c)) := hc
  have h2 := mem_of_mem_stripPy _ _ h1
  have h3 := List.of_mem_filter h2
  simpa using h3

lemma escapesAux_of_no_dotdot (comps : List String) :
    ∀ d, (∀ c ∈ comps, c ≠ "..") → escapesAux comps d = false := by
  induction comps with
  | nil => intro d _; rfl
  | cons x xs ih =>
    intro d h
    rw [escapesAux, if_neg (h x (List.mem_cons_self _ _))]
    exact ih (d + 1) (fun c hc => h c (List.mem_cons_of_mem _ hc))

lemma leaf_component_ne_dotdot (title : String) :
    sanitizeComponent title ++ (".mdx") ≠ ".." := by
  intro h
  have hlen := congrArg String.length h
  rw [String.length_append] at hlen
  have h4 : (".mdx").length = 4 := rfl
  have h2 : ("..").length = 2 := rfl
  omega

/- Freshness bookkeeping for the traversal. -/

/-- The update_time recorded on disk at a path, if a file is there and its
header parses. -/
def valueAt (fs : List (List String × String)) (p : List String) : Option Nat :=
  match lookupFile fs p with
  | none => none
  | some c => extract_update_time_from_mdx c

/-- Order on recorded values: absence is below everything, values compare
by their numbers.  A run only ever moves a path upward in this order. -/
def leO : Option Nat → Option Nat → Prop
  | none, _ => True
  | some _, none => False
  | some a, some b => a ≤ b

lemma leO_refl (v : Option Nat) : leO v v := by
  cases v <;> simp [leO]

lemma leO_trans (u v w : Option Nat) (h1 : leO u v) (h2 : leO v w) : leO u w := by
  cases u <;> cases v <;> cases w <;> simp_all [leO]
  omega

/-- Every path's recorded value only grows from one store to the other. -/
def Mono (fs fs' : List (List String × String)) : Prop :=
  ∀ p, leO (valueAt fs p) (valueAt fs' p)

lemma Mono_refl (fs : List (List String × String)) : Mono fs fs :=
  fun _ => leO_refl _

lemma Mono_trans (fs1 fs2 fs3 : List (List String × String))
    (h1 : Mono fs1 fs2) (h2 : Mono fs2 fs3) : Mono fs1 fs3 :=
  fun p => leO_trans _ _ _ (h1 p) (h2 p)

/-- A node is fresh in a store: if it is a leaf document, the file at its
path records at least the remote update_time. -/
def Fresh (fs : List (List String × String)) (pr : List String × CategoryRecord) : Prop :=
  0 < pr.2.doc_id →
    ∃ m, valueAt fs (generate_file_path pr.1 pr.2.title) = some m ∧ pr.2.time ≤ m

lemma Fresh_mono (fs fs' : List (List String × String))
    (pr : List String × CategoryRecord) (h : Fresh fs pr) (hm : Mono fs fs') :
    Fresh fs' pr := by
  intro hd
  obtain ⟨m, hv, hle⟩ := h hd
  have hp := hm (generate_file_path pr.1 pr.2.title)
  rw [hv] at hp
  cases hv' : valueAt fs' (generate_file_path pr.1 pr.2.title) with
  | none => rw [hv'] at hp; exact absurd hp (by simp [leO])
  | some m' =>
    rw [hv'] at hp
    exact ⟨m', rfl, Nat.le_trans hle hp⟩

lemma lookupFile_writeFile_same (fs : List (List String × String))
    (p : List String) (v : String) : lookupFile (writeFile fs p v) p = some v := by
  induction fs with
  | nil => simp [writeFile, lookupFile]
  | cons kv rest ih =>
    obtain ⟨k, w⟩ := kv
    by_cases hk : k = p
    · simp [writeFile, lookupFile, hk]
    · simp [writeFile, lookupFile, hk, ih]

lemma lookupFile_writeFile_other (fs : List (List String × String))
    (p q : List String) (v : String) (h : q ≠ p) :
    lookupFile (writeFile fs p v) q = lookupFile fs q := by
  induction fs with
  | nil =>
    simp only [writeFile, lookupFile]
    rw [if_neg (fun hh => h hh.symm)]
  | cons kv rest ih =>
    obtain ⟨k, w⟩ := kv
    by_cases hk : k = p
    · subst hk
      simp only [writeFile, if_pos rfl, lookupFile]
      rw [if_neg (fun hh : k = q => h hh.symm), if_neg (fun hh : k = q => h hh.symm)]
    · simp only [writeFile, if_neg hk, lookupFile]
      by_cases hq : k = q
      · rw [if_pos hq, if_pos hq]
      · rw [if_neg hq, if_neg hq]
        exact ih

/-- The remote source behaves such that every written artifact's header
round-trips: nonempty bodies, and returned titles free of the update_time
literal. -/
def RemoteClean (remote : Nat → FetchOutcome) : Prop :=
  ∀ d topt body, remote d = .ok topt body →
    ¬body = "" ∧ ∀ s, topt = some s → containsSub patUT s.toList = false

lemma needsFetch_false_elim (fs : List (List String × String)) (fp : List String)
    (rt : Nat) (h : needsFetch fs fp rt = false) :
    ∃ m, valueAt fs fp = some m ∧ rt ≤ m := by
  unfold needsFetch at h
  unfold valueAt
  cases hlk : lookupFile fs fp with
  | none =>
    simp only [hlk] at h
    exact absurd h (by simp)
  | some c =>
    simp only [hlk] at h ⊢
    cases hex : extract_update_time_from_mdx c with
    | none =>
      simp only [hex] at h
      exact absurd h (by simp)
    | some l =>
      simp only [hex] at h ⊢
      simp only [decide_eq_false_iff_not, Nat.not_lt] at h
      exact ⟨l, rfl, h⟩

lemma needsFetch_false_intro (fs : List (List String × String)) (fp : List String)
    (rt m : Nat) (hv : valueAt fs fp = some m) (hle : rt ≤ m) :
    needsFetch fs fp rt = false := by
  unfold needsFetch
  unfold valueAt at hv
  cases hlk : lookupFile fs fp with
  | none =>
    simp only [hlk] at hv
    exact absurd hv (by simp)
  | some c =>
    simp only [hlk] at hv ⊢
    rw [hv]
    simp only [decide_eq_false_iff_not, Nat.not_lt]
    exact hle

lemma processLeaf_ok (remote : Nat → FetchOutcome) (gen : String)
    (cat : CategoryRecord) (path : List String) (st st' : CrawlState)
    (hrem : RemoteClean remote) (hg : timestampLike gen = true)
    (htitle : containsSub patUT cat.title.toList = false)
    (h : processLeaf remote gen cat path st = .ok st') :
    Mono st.fs st'.fs ∧ Fresh st'.fs (path, cat) := by
  unfold processLeaf at h
  by_cases hd : 0 < cat.doc_id
  · rw [if_pos hd] at h
    by_cases hnf : needsFetch st.fs (generate_file_path path cat.title) cat.time = true
    · rw [if_pos hnf] at h
      cases hr : remote cat.doc_id with
      | err => rw [hr] at h; exact absurd h (by simp)
      | noData => rw [hr] at h; exact absurd h (by simp)
      | ok topt body =>
        rw [hr] at h
        obtain ⟨hbody, htopt⟩ := hrem cat.doc_id topt body hr
        have hclean : containsSub patUT (topt.getD cat.title).toList = false := by
          cases topt with
          | none => exact htitle
          | some s => exact htopt s rfl
        have hround : extract_update_time_from_mdx
            (md_to_mdx body (topt.getD cat.title) cat.category_id cat.time gen) =
            some cat.time :=
          extract_mdx_roundtrip body (topt.getD cat.title) gen cat.category_id cat.time
            hbody hclean hg
        have hfs : st'.fs = writeFile st.fs (generate_file_path path cat.title)
            (md_to_mdx body (topt.getD cat.title) cat.category_id cat.time gen) := by
          cases h
          rfl
        have hnew : valueAt (writeFile st.fs (generate_file_path path cat.title)
            (md_to_mdx body (topt.getD cat.title) cat.category_id cat.time gen))
            (generate_file_path path cat.title) = some cat.time := by
          unfold valueAt
          simp only [lookupFile_writeFile_same, hround]
        constructor
        · intro p
          by_cases hp : p = generate_file_path path cat.title
          · rw [hp, hfs, hnew]
            unfold needsFetch at hnf
            unfold valueAt
            cases hlk : lookupFile st.fs (generate_file_path path cat.title) with
            | none => simp [leO]
            | some c =>
              simp only [hlk] at hnf ⊢
              cases hex : extract_update_time_from_mdx c with
              | none => simp [hex, leO]
              | some l =>
                simp only [hex] at hnf ⊢
                simp only [decide_eq_true_eq] at hnf
                simp only [leO]
                omega
          · rw [hfs]
            unfold valueAt
            rw [lookupFile_writeFile_other _ _ _ _ hp]
            exact leO_refl _
        · intro _
          exact ⟨cat.time, hfs ▸ hnew, Nat.le_refl _⟩
    · rw [if_neg hnf] at h
      cases h
      obtain ⟨m, hv, hle⟩ :=
        needsFetch_false_elim _ _ _ (Bool.not_eq_true _ ▸ hnf)
      exact ⟨Mono_refl _, fun _ => ⟨m, hv, hle⟩⟩
  · rw [if_neg hd] at h
    cases h
    exact ⟨Mono_refl _, fun hdd => absurd hdd hd⟩

/-- A completed run makes every node fresh and never lowers a recorded
value at any path. -/
lemma crawl_tree_ok_fresh (remote : Nat → FetchOutcome) (gen : String)
    (hrem : RemoteClean remote) (hg : timestampLike gen = true) :
    ∀ (f : Forest) (path : List String) (st st' : CrawlState),
      titlesClean f = true → crawl_tree remote gen f path st = .ok st' →
      Mono st.fs st'.fs ∧ ∀ pr ∈ leafList f path, Fresh st'.fs pr := by
  intro f
  induction f with
  | nil =>
    intro path st st' _ h
    cases h
    exact ⟨Mono_refl _, by simp [leafList]⟩
  | cons k cat ch rest ihch ihrest =>
    intro path st st' hclean h
    simp only [titlesClean, Bool.and_eq_true, Bool.not_eq_true'] at hclean
    obtain ⟨⟨htitle, hcch⟩, hcrest⟩ := hclean
    rw [crawl_tree] at h
    cases hp : processLeaf remote gen cat path st with
    | error e =>
      simp only [hp] at h
      exact absurd h (by simp)
    | ok st1 =>
      simp only [hp] at h
      cases hc : crawl_tree remote gen ch (path ++ [cat.title]) st1 with
      | error e =>
        simp only [hc] at h
        exact absurd h (by simp)
      | ok st2 =>
        simp only [hc] at h
        obtain ⟨hm1, hf1⟩ := processLeaf_ok remote gen cat path st st1 hrem hg htitle hp
        obtain ⟨hm2, hf2⟩ := ihch (path ++ [cat.title]) st1 st2 hcch hc
        obtain ⟨hm3, hf3⟩ := ihrest path st2 st' hcrest h
        refine ⟨Mono_trans _ _ _ (Mono_trans _ _ _ hm1 hm2) hm3, ?_⟩
        intro pr hpr
        rw [leafList, List.mem_cons, List.mem_append] at hpr
        rcases hpr with rfl | hpr | hpr
        · exact Fresh_mono _ _ _ (Fresh_mono _ _ _ hf1 hm2) hm3
        · exact Fresh_mono _ _ _ (hf2 pr hpr) hm3
        · exact hf3 pr hpr

/-- On a store in which every node of the forest is already fresh, the
traversal does nothing at all: no fetch, no write, same state. -/
lemma crawl_tree_skip (remote : Nat → FetchOutcome) (gen : String) :
    ∀ (f : Forest) (path : List String) (st : CrawlState),
      (∀ pr ∈ leafList f path, Fresh st.fs pr) →
      crawl_tree remote gen f path st = .ok st := by
  intro f
  induction f with
  | nil => intro path st _; rfl
  | cons k cat ch rest ihch ihrest =>
    intro path st h
    have hfr : Fresh st.fs (path, cat) :=
      h (path, cat) (by rw [leafList]; exact List.mem_cons_self _ _)
    have hpl : processLeaf remote gen cat path st = .ok st := by
      unfold processLeaf
      by_cases hd : 0 < cat.doc_id
      · obtain ⟨m, hv, hle⟩ := hfr hd
        have hnf : needsFetch st.fs (generate_file_path path cat.title) cat.time = false :=
          needsFetch_false_intro _ _ _ m hv hle
        simp [hd, hnf]
      · simp [hd]
    have hch : crawl_tree remote gen ch (path ++ [cat.title]) st = .ok st :=
      ihch (path ++ [cat.title]) st (fun pr hpr =>
        h pr (by rw [leafList]; exact List.mem_cons_of_mem _ (List.mem_append_left _ hpr)))
    rw [crawl_tree]
    simp only [hpl, hch]
    exact ihrest path st (fun pr hpr =>
      h pr (by rw [leafList]; exact List.mem_cons_of_mem _ (List.mem_append_right _ hpr)))

/-- Sequencing: crawling an appended sibling list first runs the left part
and, only if it succeeds, continues with the right part from its state. -/
lemma crawl_tree_append (remote : Nat → FetchOutcome) (gen : String) :
    ∀ (f1 f2 : Forest) (path : List String) (st : CrawlState),
      crawl_tree remote gen (fappend f1 f2) path st =
        match crawl_tree remote gen f1 path st with
        | .error e => .error e
        | .ok st1 => crawl_tree remote gen f2 path st1 := by
  intro f1
  induction f1 with
  | nil => intro f2 path st; rfl
  | cons k cat ch rest ihch ihrest =>
    intro f2 path st
    rw [fappend, crawl_tree]
    conv_rhs => rw [crawl_tree]
    cases hp : processLeaf remote gen cat path st with
    | error e => simp only [hp]
    | ok st1 =>
      simp only [hp]
      cases hc : crawl_tree remote gen ch (path ++ [cat.title]) st1 with
      | error e => simp only [hc]
      | ok st2 =>
        simp only [hc]
        exact ihrest f2 path st2

/- Tree construction lemmas. -/

lemma treeIds_setNode (f : Forest) (i : Nat) (cat : CategoryRecord)
    (h : i ∉ treeIds f) : treeIds (setNode f i cat) = treeIds f ++ [i] := by
  induction f with
  | nil => simp [setNode, treeIds]
  | cons k c ch rest ihch ihrest =>
    simp only [treeIds, List.mem_cons, List.mem_append] at h
    push_neg at h
    obtain ⟨hk, _, hrest⟩ := h
    rw [setNode, if_neg (fun he => hk he.symm)]
    simp [treeIds, ihrest hrest, List.append_assoc]

lemma nwp_setNode (f : Forest) (i : Nat) (cat : CategoryRecord) (pk : Option Nat)
    (h : i ∉ treeIds f) :
    nodesWithParent (setNode f i cat) pk = nodesWithParent f pk ++ [(cat, pk)] := by
  induction f generalizing pk with
  | nil => simp [setNode, nodesWithParent]
  | cons k c ch rest ihch ihrest =>
    simp only [treeIds, List.mem_cons, List.mem_append] at h
    push_neg at h
    obtain ⟨hk, _, hrest⟩ := h
    rw [setNode, if_neg (fun he => hk he.symm)]
    simp [nodesWithParent, ihrest pk hrest, List.append_assoc]

lemma wellKeyed_setNode (f : Forest) (cat : CategoryRecord)
    (hw : wellKeyed f = true) :
    wellKeyed (setNode f cat.category_id cat) = true := by
  induction f with
  | nil => simp [setNode, wellKeyed]
  | cons k c ch rest ihch ihrest =>
    simp only [wellKeyed, Bool.and_eq_true] at hw
    obtain ⟨⟨hk, hch⟩, hrest⟩ := hw
    by_cases he : k = cat.category_id
    · rw [setNode, if_pos he]
      simp [wellKeyed, he, hch, hrest]
    · rw [setNode, if_neg he]
      simp [wellKeyed, hk, hch, ihrest hrest]

lemma addToTree_not_found (p : Nat) (cat : CategoryRecord) :
    ∀ f : Forest, p ∉ treeIds f → addToTree f p cat = f := by
  intro f
  induction f with
  | nil => intro _; rfl
  | cons k c ch rest ihch ihrest =>
    intro h
    simp only [treeIds, List.mem_cons, List.mem_append] at h
    push_neg at h
    obtain ⟨hk, hch, hrest⟩ := h
    rw [addToTree, if_neg (fun he => hk he.symm)]
    rw [ihch hch, ihrest hrest]

/-- Inserting under a present, unique parent key adds exactly one node,
tagged with that parent key, and disturbs nothing else. -/
lemma addToTree_found (p : Nat) (cat : CategoryRecord) :
    ∀ f : Forest, wellKeyed f = true → (treeIds f).Nodup → p ∈ treeIds f →
      cat.category_id ∉ treeIds f →
      (treeIds (addToTree f p cat)).Perm (cat.category_id :: treeIds f) ∧
      wellKeyed (addToTree f p cat) = true ∧
      ∀ pk, (nodesWithParent (addToTree f p cat) pk).Perm
        ((cat, some p) :: nodesWithParent f pk) := by
  intro f
  induction f with
  | nil =>
    intro _ _ hp _
    simp [treeIds] at hp
  | cons k c ch rest ihch ihrest =>
    intro hw hnd hp hfresh
    simp only [wellKeyed, Bool.and_eq_true, beq_iff_eq] at hw
    obtain ⟨⟨hkc, hwch⟩, hwrest⟩ := hw
    rw [treeIds, List.nodup_cons, List.nodup_append] at hnd
    obtain ⟨hknotin, hndch, hndrest, hdisj⟩ := hnd
    simp only [treeIds, List.mem_cons, List.mem_append] at hfresh
    push_neg at hfresh
    obtain ⟨hfk, hfch, hfrest⟩ := hfresh
    by_cases hpk : k = p
    · subst hpk
      rw [addToTree, if_pos rfl]
      refine ⟨?_, ?_, ?_⟩
      · rw [treeIds, treeIds_setNode ch cat.category_id cat hfch, treeIds]
        refine List.Perm.trans (List.Perm.cons _ ?_) (List.Perm.swap _ _ _)
        rw [List.append_assoc, List.singleton_append]
        exact List.perm_middle
      · simp only [wellKeyed, Bool.and_eq_true, beq_iff_eq]
        exact ⟨⟨hkc, wellKeyed_setNode ch cat hwch⟩, hwrest⟩
      · intro pk
        rw [nodesWithParent, nwp_setNode ch cat.category_id cat _ hfch,
          nodesWithParent, hkc]
        refine List.Perm.trans (List.Perm.cons _ ?_) (List.Perm.swap _ _ _)
        rw [List.append_assoc, List.singleton_append]
        exact List.perm_middle
    · rw [addToTree, if_neg hpk]
      simp only [treeIds, List.mem_cons, List.mem_append] at hp
      rcases hp with hp | hp | hp
      · exact absurd hp.symm hpk
      · have hnotrest : p ∉ treeIds rest := fun hmem => hdisj hp hmem
        rw [addToTree_not_found p cat rest hnotrest]
        obtain ⟨hids, hwk, hnwp⟩ := ihch hwch hndch hp hfch
        refine ⟨?_, ?_, ?_⟩
        · rw [treeIds, treeIds]
          refine List.Perm.trans (List.Perm.cons _ (List.Perm.append_right _ hids)) ?_
          rw [List.cons_append]
          exact List.Perm.swap _ _ _
        · simp only [wellKeyed, Bool.and_eq_true, beq_iff_eq]
          exact ⟨⟨hkc, hwk⟩, hwrest⟩
        · intro pk
          rw [nodesWithParent, nodesWithParent]
          refine List.Perm.trans
            (List.Perm.cons _ (List.Perm.append_right _ (hnwp _))) ?_
          rw [List.cons_append]
          exact List.Perm.swap _ _ _
      · have hnotch : p ∉ treeIds ch := fun hmem => hdisj hmem hp
        rw [addToTree_not_found p cat ch hnotch]
        obtain ⟨hids, hwk, hnwp⟩ := ihrest hwrest hndrest hp hfrest
        refine ⟨?_, ?_, ?_⟩
        · rw [treeIds, treeIds]
          refine List.Perm.trans (List.Perm.cons _ (List.Perm.append_left _ hids)) ?_
          refine List.Perm.trans (List.Perm.cons _ List.perm_middle) ?_
          exact List.Perm.swap _ _ _
        · simp only [wellKeyed, Bool.and_eq_true, beq_iff_eq]
          exact ⟨⟨hkc, hwch⟩, hwk⟩
        · intro pk
          rw [nodesWithParent, nodesWithParent]
          refine List.Perm.trans
            (List.Perm.cons _ (List.Perm.append_left _ (hnwp _))) ?_
          refine List.Perm.trans (List.Perm.cons _ List.perm_middle) ?_
          exact List.Perm.swap _ _ _

/-- The record together with the parent key its tree node must hang from:
none for a root, otherwise its parent_id. -/
def parentTag (r : CategoryRecord) : CategoryRecord × Option Nat :=
  (r, if r.parent_id = 0 then none else some r.parent_id)

lemma parentsBeforeB_perm (l : List CategoryRecord) :
    ∀ seen1 seen2 : List Nat, seen1.Perm seen2 →
      parentsBeforeB seen1 l = parentsBeforeB seen2 l := by
  induction l with
  | nil => intro _ _ _; rfl
  | cons r rest ih =>
    intro seen1 seen2 h
    rw [parentsBeforeB, parentsBeforeB]
    rw [ih (r.category_id :: seen1) (r.category_id :: seen2) (List.Perm.cons _ h)]
    congr 1
    congr 1
    exact decide_eq_decide.mpr h.mem_iff

/-- Loop invariant of build_category_tree: after any prefix, the forest
holds exactly the processed records, each under the parent key its record
demands. -/
lemma buildLoop_inv :
    ∀ (todo done : List CategoryRecord) (f : Forest),
      wellKeyed f = true →
      (treeIds f).Nodup →
      (treeIds f).Perm (done.map (fun r => r.category_id)) →
      ((done ++ todo).map (fun r => r.category_id)).Nodup →
      parentsBeforeB (done.map (fun r => r.category_id)) todo = true →
      (nodesWithParent f none).Perm (done.map parentTag) →
      (nodesWithParent (buildLoop todo f) none).Perm ((done ++ todo).map parentTag) := by
  intro todo
  induction todo with
  | nil =>
    intro done f _ _ _ _ _ hnwp
    simpa using hnwp
  | cons r rest ih =>
    intro done f hw hnd hids hglob hpb hnwp
    rw [parentsBeforeB, Bool.and_eq_true] at hpb
    obtain ⟨hpb1, hpb2⟩ := hpb
    have hfreshdone : r.category_id ∉ done.map (fun r => r.category_id) := by
      intro hmem
      have hglob2 := hglob
      rw [List.map_append, List.nodup_append] at hglob2
      exact hglob2.2.2 hmem (by simp)
    have hfresh : r.category_id ∉ treeIds f :=
      fun hmem => hfreshdone (hids.mem_iff.mp hmem)
    have hglobstep : (((done ++ [r]) ++ rest).map (fun r => r.category_id)).Nodup := by
      rw [List.append_assoc, List.singleton_append]
      exact hglob
    have hpbstep : parentsBeforeB ((done ++ [r]).map (fun r => r.category_id)) rest = true := by
      rw [← hpb2]
      apply parentsBeforeB_perm
      rw [List.map_append]
      exact List.perm_append_singleton _ _
    have hdone : done ++ r :: rest = (done ++ [r]) ++ rest := by
      rw [List.append_assoc, List.singleton_append]
    rw [buildLoop]
    by_cases hp0 : r.parent_id = 0
    · rw [if_pos hp0, hdone]
      apply ih (done ++ [r])
      · exact wellKeyed_setNode f r hw
      · rw [treeIds_setNode f r.category_id r hfresh, List.nodup_append]
        exact ⟨hnd, List.nodup_singleton _, fun a ha hb => by
          rw [List.mem_singleton] at hb
          exact hfresh (hb ▸ ha)⟩
      · rw [treeIds_setNode f r.category_id r hfresh, List.map_append]
        exact List.Perm.append_right _ hids
      · exact hglobstep
      · exact hpbstep
      · rw [nwp_setNode f r.category_id r none hfresh, List.map_append,
          List.map_singleton]
        have hpt : parentTag r = (r, none) := by simp [parentTag, hp0]
        rw [hpt]
        exact List.Perm.append_right _ hnwp
    · rw [if_neg hp0]
      have hpin : r.parent_id ∈ treeIds f := by
        simp only [Bool.or_eq_true, beq_iff_eq, decide_eq_true_eq] at hpb1
        rcases hpb1 with hpb1 | hpb1
        · exact absurd hpb1 hp0
        · exact hids.mem_iff.mpr hpb1
      obtain ⟨hids2, hwk2, hnwp2⟩ :=
        addToTree_found r.parent_id r f hw hnd hpin hfresh
      rw [hdone]
      apply ih (done ++ [r])
      · exact hwk2
      · exact List.Perm.nodup hids2.symm (by
          rw [List.nodup_cons]
          exact ⟨hfresh, hnd⟩)
      · refine List.Perm.trans hids2 ?_
        rw [List.map_append, List.map_singleton]
        refine List.Perm.trans (List.Perm.cons _ hids) ?_
        exact (List.perm_append_singleton _ _).symm
      · exact hglobstep
      · exact hpbstep
      · refine List.Perm.trans (hnwp2 none) ?_
        rw [List.map_append, List.map_singleton]
        have : parentTag r = (r, some r.parent_id) := by simp [parentTag, hp0]
        rw [this]
        refine List.Perm.trans (List.Perm.cons _ hnwp) ?_
        exact (List.perm_append_singleton _ _).symm

/-- State observable from a finished or aborted traversal: the exception
value carries the state at the moment of the raise. -/
def outState : Except (String × CrawlState) CrawlState → CrawlState
  | .ok st => st
  | .error (_, st) => st

lemma crawl_tree_single (remote : Nat → FetchOutcome) (gen : String) (k : Nat)
    (cat : CategoryRecord) (path : List String) (st : CrawlState) :
    crawl_tree remote gen (Forest.cons k cat Forest.nil Forest.nil) path st =
      match processLeaf remote gen cat path st with
      | .error e => .error e
      | .ok st1 => .ok st1 := by
  rw [crawl_tree]
  cases processLeaf remote gen cat path st with
  | error e => rfl
  | ok st1 => rfl

lemma processLeaf_fetch_eq (remote : Nat → FetchOutcome) (gen : String)
    (cat : CategoryRecord) (path : List String) (st : CrawlState)
    (hleaf : 0 < cat.doc_id)
    (hnf : needsFetch st.fs (generate_file_path path cat.title) cat.time = true) :
    processLeaf remote gen cat path st =
      match remote cat.doc_id with
      | .err => .error (("request exception"), ⟨st.fs, st.fetched ++ [cat.doc_id]⟩)
      | .noData =>
        .error (("No data found in the response"), ⟨st.fs, st.fetched ++ [cat.doc_id]⟩)
      | .ok topt body =>
        .ok ⟨writeFile st.fs (generate_file_path path cat.title)
            (md_to_mdx body (topt.getD cat.title) cat.category_id cat.time gen),
          st.fetched ++ [cat.doc_id]⟩ := by
  unfold processLeaf
  rw [if_pos hleaf]
  simp only [hnf, if_true]

lemma processLeaf_skip_eq (remote : Nat → FetchOutcome) (gen : String)
    (cat : CategoryRecord) (path : List String) (st : CrawlState)
    (hnf : needsFetch st.fs (generate_file_path path cat.title) cat.time = false) :
    processLeaf remote gen cat path st = .ok st := by
  unfold processLeaf
  by_cases hd : 0 < cat.doc_id
  · simp [hd, hnf]
  · simp [hd]

/-- Claim C1: for a leaf node whose target path holds an artifact with a
parseable local update_time L, and whose category record carries remote
update_time R (the time field), the traversal fetches iff R is strictly
greater than L; when L equals or exceeds R it performs no network call and
no write for that leaf (the state is returned untouched). -/
theorem claim_C1 (remote : Nat → FetchOutcome) (gen : String) (k : Nat)
    (cat : CategoryRecord) (path : List String) (st : CrawlState)
    (c : String) (L : Nat)
    (hleaf : 0 < cat.doc_id)
    (hfile : lookupFile st.fs (generate_file_path path cat.title) = some c)
    (hL : extract_update_time_from_mdx c = some L) :
    ((outState (crawl_tree remote gen (Forest.cons k cat Forest.nil Forest.nil) path st)).fetched
        = st.fetched ++ [cat.doc_id] ↔ L < cat.time) ∧
    (cat.time ≤ L →
      crawl_tree remote gen (Forest.cons k cat Forest.nil Forest.nil) path st =
        .ok st) := by
  have hnf : needsFetch st.fs (generate_file_path path cat.title) cat.time
      = decide (L < cat.time) := by
    unfold needsFetch
    simp only [hfile, hL]
  have hne : st.fetched ≠ st.fetched ++ [cat.doc_id] := by
    intro he
    have hlen := congrArg List.length he
    simp at hlen
  by_cases hlt : L < cat.time
  · have hnf' : needsFetch st.fs (generate_file_path path cat.title) cat.time = true := by
      rw [hnf]
      simpa using hlt
    have heq := processLeaf_fetch_eq remote gen cat path st hleaf hnf'
    rw [crawl_tree_single, heq]
    cases hr : remote cat.doc_id with
    | err => exact ⟨by simp [outState, hlt], fun hge => absurd hlt (by omega)⟩
    | noData => exact ⟨by simp [outState, hlt], fun hge => absurd hlt (by omega)⟩
    | ok topt body => exact ⟨by simp [outState, hlt], fun hge => absurd hlt (by omega)⟩
  · have hnf' : needsFetch st.fs (generate_file_path path cat.title) cat.time = false := by
      rw [hnf]
      simpa using hlt
    have heq := processLeaf_skip_eq remote gen cat path st hnf'
    rw [crawl_tree_single, heq]
    exact ⟨by simp [outState, hlt, hne], fun _ => rfl⟩

/-- Closed witness for claim C1 at a concrete leaf: a stored artifact with
update_time 100 against remote time 100 is skipped and the run state is
unchanged. -/
theorem claim_C1_witness :
    ((outState (crawl_tree (fun _ => FetchOutcome.err) ("2024-01-01 00:00:00")
        (Forest.cons 2 ⟨some 2, 2, 0, "Auth", 500, 100⟩ Forest.nil Forest.nil) []
        ⟨[(["Auth.mdx"],
          md_to_mdx ("hello") ("Auth") 2 100 ("2024-01-01 00:00:00"))], []⟩)).fetched
      = [] ++ [500] ↔ 100 < 100) ∧
    (100 ≤ 100 →
      crawl_tree (fun _ => FetchOutcome.err) ("2024-01-01 00:00:00")
        (Forest.cons 2 ⟨some 2, 2, 0, "Auth", 500, 100⟩ Forest.nil Forest.nil) []
        ⟨[(["Auth.mdx"],
          md_to_mdx ("hello") ("Auth") 2 100 ("2024-01-01 00:00:00"))], []⟩ =
        .ok ⟨[(["Auth.mdx"],
          md_to_mdx ("hello") ("Auth") 2 100 ("2024-01-01 00:00:00"))], []⟩) :=
  claim_C1 (fun _ => FetchOutcome.err) ("2024-01-01 00:00:00") 2
    ⟨some 2, 2, 0, "Auth", 500, 100⟩ []
    ⟨[(["Auth.mdx"], md_to_mdx ("hello") ("Auth") 2 100 ("2024-01-01 00:00:00"))], []⟩
    (md_to_mdx ("hello") ("Auth") 2 100 ("2024-01-01 00:00:00")) 100
    (by decide) (by rfl) (by rfl)

/-- Claim C8: when an artifact exists at the leaf's path but its header is
missing or malformed (the parser yields none), the run is not aborted by
the freshness lookup: the document is fetched again, and with a usable
remote payload the traversal of that leaf completes normally. -/
theorem claim_C8 (remote : Nat → FetchOutcome) (gen : String) (k : Nat)
    (cat : CategoryRecord) (path : List String) (st : CrawlState)
    (c : String) (topt : Option String) (body : String)
    (hleaf : 0 < cat.doc_id)
    (hfile : lookupFile st.fs (generate_file_path path cat.title) = some c)
    (hmal : extract_update_time_from_mdx c = none)
    (hr : remote cat.doc_id = .ok topt body) :
    ∃ st', crawl_tree remote gen (Forest.cons k cat Forest.nil Forest.nil) path st =
        .ok st' ∧ st'.fetched = st.fetched ++ [cat.doc_id] := by
  have hnf : needsFetch st.fs (generate_file_path path cat.title) cat.time = true := by
    unfold needsFetch
    simp only [hfile, hmal]
  rw [crawl_tree_single, processLeaf_fetch_eq remote gen cat path st hleaf hnf]
  simp only [hr]
  exact ⟨_, rfl, rfl⟩

/-- Closed witness for claim C8: a stored file that is not an artifact at
all triggers a re-fetch instead of an abort. -/
theorem claim_C8_witness :
    ∃ st', crawl_tree (fun _ => FetchOutcome.ok none ("new text")) ("2024-01-01 00:00:00")
        (Forest.cons 2 ⟨some 2, 2, 0, "Auth", 500, 100⟩ Forest.nil Forest.nil) []
        ⟨[(["Auth.mdx"], ("just some junk, no header"))], []⟩ = .ok st' ∧
      st'.fetched = [] ++ [500] :=
  claim_C8 (fun _ => FetchOutcome.ok none ("new text")) ("2024-01-01 00:00:00") 2
    ⟨some 2, 2, 0, "Auth", 500, 100⟩ []
    ⟨[(["Auth.mdx"], ("just some junk, no header"))], []⟩
    ("just some junk, no header") none ("new text")
    (by decide) (by rfl) (by rfl) (by rfl)

/-- Claim C7: when the first leaf needing an update after a successfully
crawled prefix hits a failing fetch (request exception) or a response
without a usable data payload, the whole traversal aborts at once with an
error: the error state shows no write for that leaf, and the result does
not depend on the node's children nor on any later sibling, which are
never visited. -/
theorem claim_C7 (remote : Nat → FetchOutcome) (gen : String)
    (f1 : Forest) (k : Nat) (cat : CategoryRecord) (ch f2 : Forest)
    (path : List String) (st st1 : CrawlState)
    (h1 : crawl_tree remote gen f1 path st = .ok st1)
    (hleaf : 0 < cat.doc_id)
    (hneed : needsFetch st1.fs (generate_file_path path cat.title) cat.time = true)
    (hfail : remote cat.doc_id = .err ∨ remote cat.doc_id = .noData) :
    ∃ msg, crawl_tree remote gen (fappend f1 (Forest.cons k cat ch f2)) path st =
      .error (msg, ⟨st1.fs, st1.fetched ++ [cat.doc_id]⟩) := by
  rw [crawl_tree_append]
  simp only [h1]
  rw [crawl_tree]
  have heq := processLeaf_fetch_eq remote gen cat path st1 hleaf hneed
  rcases hfail with hf | hf
  · exact ⟨("request exception"), by simp only [heq, hf]⟩
  · exact ⟨("No data found in the response"), by simp only [heq, hf]⟩

/-- Closed witness for claim C7: a single stale leaf whose fetch raises
aborts the run with the pre-leaf state and the attempted doc_id. -/
theorem claim_C7_witness :
    ∃ msg, crawl_tree (fun _ => FetchOutcome.err) ("2024-01-01 00:00:00")
        (fappend Forest.nil
          (Forest.cons 2 ⟨some 2, 2, 0, "Auth", 500, 100⟩ Forest.nil
            (Forest.cons 3 ⟨some 3, 3, 0, "Later", 600, 1⟩ Forest.nil Forest.nil)))
        [] ⟨[], []⟩ =
      .error (msg, ⟨[], [] ++ [500]⟩) :=
  claim_C7 (fun _ => FetchOutcome.err) ("2024-01-01 00:00:00") Forest.nil 2
    ⟨some 2, 2, 0, "Auth", 500, 100⟩ Forest.nil
    (Forest.cons 3 ⟨some 3, 3, 0, "Later", 600, 1⟩ Forest.nil Forest.nil)
    [] ⟨[], []⟩ ⟨[], []⟩ (by rfl) (by decide) (by rfl) (Or.inl rfl)

/-- Claim C2 (amended): for a fixed remote state, if the first run
completes, the second run performs zero fetches and leaves the output
untouched — provided every fetched document has a nonempty body and no
stored title (returned or category fallback) contains the update_time
field literal.  As literally stated the claim is false: see the
counterexample, where an empty body yields a headerless artifact that is
re-fetched on every run. -/
theorem claim_C2_amended (remote : Nat → FetchOutcome) (gen1 gen2 : String)
    (forest : Forest) (path : List String) (fs0 : List (List String × String))
    (st1 : CrawlState)
    (hrem : RemoteClean remote)
    (htc : titlesClean forest = true)
    (hg1 : timestampLike gen1 = true) (_hg2 : timestampLike gen2 = true)
    (h1 : crawl_tree remote gen1 forest path ⟨fs0, []⟩ = .ok st1) :
    crawl_tree remote gen2 forest path ⟨st1.fs, []⟩ = .ok ⟨st1.fs, []⟩ := by
  obtain ⟨_, hfresh⟩ :=
    crawl_tree_ok_fresh remote gen1 hrem hg1 forest path ⟨fs0, []⟩ st1 htc h1
  exact crawl_tree_skip remote gen2 forest path ⟨st1.fs, []⟩ hfresh

/-- Closed witness for the amended claim C2: after a first run that fetched
doc 500 and wrote its artifact, a second run is the identity and fetches
nothing. -/
theorem claim_C2_amended_witness :
    crawl_tree (fun _ => FetchOutcome.ok none ("hi")) ("2024-01-02 00:00:00")
        (Forest.cons 2 ⟨some 2, 2, 0, "Auth", 500, 100⟩ Forest.nil Forest.nil) []
        ⟨[(["Auth.mdx"], md_to_mdx ("hi") ("Auth") 2 100 ("2024-01-01 00:00:00"))], []⟩ =
      .ok ⟨[(["Auth.mdx"], md_to_mdx ("hi") ("Auth") 2 100 ("2024-01-01 00:00:00"))], []⟩ :=
  claim_C2_amended (fun _ => FetchOutcome.ok none ("hi"))
    ("2024-01-01 00:00:00") ("2024-01-02 00:00:00")
    (Forest.cons 2 ⟨some 2, 2, 0, "Auth", 500, 100⟩ Forest.nil Forest.nil) [] []
    ⟨[(["Auth.mdx"], md_to_mdx ("hi") ("Auth") 2 100 ("2024-01-01 00:00:00"))], [500]⟩
    (fun d topt body h => by
      injection h with h1 h2
      subst h1
      subst h2
      exact ⟨by decide, fun s hs => by cases hs⟩)
    (by decide) (by decide) (by decide) (by rfl)

/-- Counterexample to claim C2 as stated: with remote state serving doc 500
with an empty body, the first run fetches and writes the placeholder
artifact, and the second run, on the very output of the first, fetches doc
500 again — not zero fetches. -/
theorem claim_C2_counterexample :
    crawl_tree (fun _ => FetchOutcome.ok none ("")) ("2024-01-01 00:00:00")
        (Forest.cons 2 ⟨some 2, 2, 0, "Auth", 500, 100⟩ Forest.nil Forest.nil) []
        ⟨[], []⟩ =
      .ok ⟨[(["Auth.mdx"], ("# Auth\n\n*No content available*\n"))], [500]⟩ ∧
    crawl_tree (fun _ => FetchOutcome.ok none ("")) ("2024-01-02 00:00:00")
        (Forest.cons 2 ⟨some 2, 2, 0, "Auth", 500, 100⟩ Forest.nil Forest.nil) []
        ⟨[(["Auth.mdx"], ("# Auth\n\n*No content available*\n"))], []⟩ =
      .ok ⟨[(["Auth.mdx"], ("# Auth\n\n*No content available*\n"))], [500]⟩ ∧
    ([500] : List Nat) ≠ [] :=
  ⟨rfl, rfl, by decide⟩

/-- Claim C3: for the flat list with a root grouping record (category_id 1,
title API) and a leaf record (category_id 2, parent 1, title Auth, doc_id
500, remote update_time 100), with no local artifacts, the sync fetches
doc 500 and writes the file at API/Auth.mdx below the output root, whose
header records update_time 100.  The records carry the source's id key
(unused beyond the KeyError guard); the remote payload must be usable,
with a nonempty body and an injection-free title, for a header to exist. -/
theorem claim_C3 (remote : Nat → FetchOutcome) (gen : String) (topt : Option String)
    (body : String)
    (hg : timestampLike gen = true)
    (hr : remote 500 = .ok topt body)
    (hb : ¬body = "")
    (ht : ∀ s, topt = some s → containsSub patUT s.toList = false) :
    ∃ F st', build_category_tree
        [⟨some 1, 1, 0, "API", 0, 0⟩, ⟨some 2, 2, 1, "Auth", 500, 100⟩] = .ok F ∧
      crawl_tree remote gen F [] ⟨[], []⟩ = .ok st' ∧
      st'.fetched = [500] ∧
      ∃ c, lookupFile st'.fs ["API", "Auth.mdx"] = some c ∧
        extract_update_time_from_mdx c = some 100 := by
  have hcleant : containsSub patUT (topt.getD ("Auth")).toList = false := by
    cases topt with
    | none => decide
    | some s => exact ht s rfl
  refine ⟨Forest.cons 1 ⟨some 1, 1, 0, "API", 0, 0⟩
      (Forest.cons 2 ⟨some 2, 2, 1, "Auth", 500, 100⟩ Forest.nil Forest.nil) Forest.nil,
    ⟨[(["API", "Auth.mdx"], md_to_mdx body (topt.getD ("Auth")) 2 100 gen)], [500]⟩,
    rfl, ?_, rfl,
    md_to_mdx body (topt.getD ("Auth")) 2 100 gen, rfl,
    extract_mdx_roundtrip body (topt.getD ("Auth")) gen 2 100 hb hcleant hg⟩
  rw [crawl_tree]
  have h1 : processLeaf remote gen ⟨some 1, 1, 0, "API", 0, 0⟩ [] ⟨[], []⟩ =
      .ok ⟨[], []⟩ := rfl
  simp only [h1, List.nil_append]
  rw [crawl_tree]
  have h2 := processLeaf_fetch_eq remote gen ⟨some 2, 2, 1, "Auth", 500, 100⟩
    (["API"]) ⟨[], []⟩ (by decide) (by rfl)
  simp only [h2, hr]
  rfl

/-- Closed witness for claim C3 at a concrete remote payload. -/
theorem claim_C3_witness :
    ∃ F st', build_category_tree
        [⟨some 1, 1, 0, "API", 0, 0⟩, ⟨some 2, 2, 1, "Auth", 500, 100⟩] = .ok F ∧
      crawl_tree (fun _ => FetchOutcome.ok none ("the document body"))
        ("2024-01-01 00:00:00") F [] ⟨[], []⟩ = .ok st' ∧
      st'.fetched = [500] ∧
      ∃ c, lookupFile st'.fs ["API", "Auth.mdx"] = some c ∧
        extract_update_time_from_mdx c = some 100 :=
  claim_C3 (fun _ => FetchOutcome.ok none ("the document body"))
    ("2024-01-01 00:00:00") none ("the document body")
    (by decide) (by rfl) (by decide) (fun s hs => by cases hs)

/-- Claim C4: for records whose non-zero parent_ids each name an earlier
record's category_id (parents enumerated before children), with unique
category_ids and the id key present on every record, build produces a
forest whose flattened nodes are a permutation of the input records, each
tagged with exactly the parent key its parent_id demands (none for roots).
Each record therefore appears as exactly one tree node, sitting under the
node of its parent, i.e. at the position implied by its parent_id chain. -/
theorem claim_C4 (records : List CategoryRecord)
    (hid : records.all (fun r => r.id.isSome) = true)
    (hnd : (records.map (fun r => r.category_id)).Nodup)
    (hpb : parentsBeforeB [] records = true) :
    ∃ F, build_category_tree records = .ok F ∧
      (nodesWithParent F none).Perm (records.map parentTag) := by
  refine ⟨buildLoop records Forest.nil, ?_, ?_⟩
  · unfold build_category_tree
    rw [if_pos hid]
  · have h := buildLoop_inv records [] Forest.nil rfl (by simp [treeIds])
      (by simp [treeIds]) (by simpa using hnd) (by simpa using hpb)
      (by simp [nodesWithParent])
    simpa using h

/-- Closed witness for claim C4 on a three-record forest with two roots. -/
theorem claim_C4_witness :
    ∃ F, build_category_tree
        [⟨some 1, 1, 0, "API", 0, 0⟩, ⟨some 3, 3, 0, "Guide", 0, 0⟩,
          ⟨some 2, 2, 1, "Auth", 500, 100⟩] = .ok F ∧
      (nodesWithParent F none).Perm
        ([⟨some 1, 1, 0, "API", 0, 0⟩, ⟨some 3, 3, 0, "Guide", 0, 0⟩,
          ⟨some 2, 2, 1, "Auth", 500, 100⟩].map parentTag) :=
  claim_C4 [⟨some 1, 1, 0, "API", 0, 0⟩, ⟨some 3, 3, 0, "Guide", 0, 0⟩,
      ⟨some 2, 2, 1, "Auth", 500, 100⟩]
    (by decide) (by decide) (by decide)

/-- Claim C5 (amended): writing an artifact with a nonempty body, a title
that does not contain the update_time field literal, and a
strftime-shaped generation stamp, then reading it back through the header
parser, yields exactly the written update_time T.  As literally stated
for every title the claim is false: see the counterexample. -/
theorem claim_C5_amended (title body gen : String) (cid T : Nat)
    (hb : ¬body = "") (ht : containsSub patUT title.toList = false)
    (hg : timestampLike gen = true) :
    extract_update_time_from_mdx (md_to_mdx body title cid T gen) = some T :=
  extract_mdx_roundtrip body title gen cid T hb ht hg

/-- Closed witness for the amended claim C5. -/
theorem claim_C5_amended_witness :
    extract_update_time_from_mdx
      (md_to_mdx ("body text") ("Auth / Tokens") 7 12345 ("2024-01-01 00:00:00")) =
      some 12345 :=
  claim_C5_amended ("Auth / Tokens") ("body text") ("2024-01-01 00:00:00") 7 12345
    (by decide) (by decide) (by decide)

/-- Counterexample to claim C5 as stated: a title that itself contains an
update_time field makes the parser return the title's number, not the
written one. -/
theorem claim_C5_counterexample :
    extract_update_time_from_mdx
        (md_to_mdx ("hello") ("update_time: 0") 7 1 ("2024-01-01 00:00:00")) = some 0 ∧
    ¬extract_update_time_from_mdx
        (md_to_mdx ("hello") ("update_time: 0") 7 1 ("2024-01-01 00:00:00")) = some 1 :=
  ⟨rfl, by decide⟩

/-- Claim C6 (amended): every occurrence of the forbidden characters is
removed from every component of the generated path, and the path stays
below the output root provided no ancestor title sanitizes to the literal
dot-dot component.  As literally stated the claim is false: see the
counterexample, where an ancestor title of two dots survives sanitization
and resolves above the output root. -/
theorem claim_C6_amended (category_path : List String) (title : String)
    (hnodd : ∀ comp ∈ category_path, sanitizeComponent comp ≠ "..") :
    (∀ comp ∈ generate_file_path category_path title, ∀ ch ∈ comp.toList,
      badPathChar ch = false) ∧
    escapesRoot (generate_file_path category_path title) = false := by
  constructor
  · intro comp hcomp ch hch
    rw [generate_file_path, List.mem_append] at hcomp
    rcases hcomp with hcomp | hcomp
    · obtain ⟨hmem, _⟩ := List.mem_filter.mp hcomp
      obtain ⟨s, _, rfl⟩ := List.mem_map.mp hmem
      exact sanitizeComponent_no_bad s ch hch
    · rw [List.mem_singleton] at hcomp
      subst hcomp
      rw [String.toList, String.data_append] at hch
      rcases List.mem_append.mp hch with hch | hch
      · exact sanitizeComponent_no_bad title ch hch
      · have hmem : ch ∈ ['.', 'm', 'd', 'x'] := hch
        simp only [List.mem_cons, List.not_mem_nil, or_false] at hmem
        rcases hmem with rfl | rfl | rfl | rfl <;> decide
  · unfold escapesRoot
    apply escapesAux_of_no_dotdot
    intro comp hcomp
    rw [generate_file_path, List.mem_append] at hcomp
    rcases hcomp with hcomp | hcomp
    · obtain ⟨hmem, _⟩ := List.mem_filter.mp hcomp
      obtain ⟨s, hs, rfl⟩ := List.mem_map.mp hmem
      exact hnodd s hs
    · rw [List.mem_singleton] at hcomp
      subst hcomp
      exact leaf_component_ne_dotdot title

/-- Closed witness for the amended claim C6: ancestor and leaf titles full
of forbidden characters yield a clean path below the output root. -/
theorem claim_C6_amended_witness :
    (∀ comp ∈ generate_file_path [(" A<PI|? ")] ("Au/th*"), ∀ ch ∈ comp.toList,
      badPathChar ch = false) ∧
    escapesRoot (generate_file_path [(" A<PI|? ")] ("Au/th*")) = false :=
  claim_C6_amended [(" A<PI|? ")] ("Au/th*") (by decide)

/-- Counterexample to claim C6 as stated: an ancestor title of two dots is
left intact by the character stripping and the resulting path resolves
outside the output root. -/
theorem claim_C6_counterexample :
    escapesRoot (generate_file_path [("..")] ("x")) = true := by decide

/-- Claim C9 (amended): a fetched document with empty body text yields an
artifact that is exactly the title heading plus the placeholder line, with
no metadata header; provided the stored title contains no newline, the
header parser returns none on it and any later freshness check marks the
document for re-fetch.  As literally stated, for every title, the claim
is false: see the counterexample, where a title embedding its own
frontmatter block makes the parser return a value. -/
theorem claim_C9_amended (title : String) (cid ut ut2 : Nat) (gen : String)
    (hnl : '\n' ∉ title.toList) :
    md_to_mdx ("") title cid ut gen =
      ("# ") ++ title ++ ("\n\n*No content available*\n") ∧
    extract_update_time_from_mdx (md_to_mdx ("") title cid ut gen) = none ∧
    (∀ fs fp, lookupFile fs fp = some (md_to_mdx ("") title cid ut gen) →
      needsFetch fs fp ut2 = true) := by
  have hmd : md_to_mdx ("") title cid ut gen =
      ("# ") ++ title ++ ("\n\n*No content available*\n") := by
    rw [md_to_mdx, if_pos rfl]
  have hex : extract_update_time_from_mdx (md_to_mdx ("") title cid ut gen) = none := by
    rw [hmd]
    exact extract_placeholder_none title hnl
  refine ⟨hmd, hex, ?_⟩
  intro fs fp hlk
  unfold needsFetch
  simp only [hlk, hex]

/-- Closed witness for the amended claim C9. -/
theorem claim_C9_amended_witness :
    md_to_mdx ("") ("Auth") 2 100 ("2024-01-01 00:00:00") =
      ("# ") ++ ("Auth") ++ ("\n\n*No content available*\n") ∧
    extract_update_time_from_mdx
      (md_to_mdx ("") ("Auth") 2 100 ("2024-01-01 00:00:00")) = none ∧
    (∀ fs fp, lookupFile fs fp =
        some (md_to_mdx ("") ("Auth") 2 100 ("2024-01-01 00:00:00")) →
      needsFetch fs fp 100 = true) :=
  claim_C9_amended ("Auth") 2 100 100 ("2024-01-01 00:00:00") (by decide)

/-- Counterexample to claim C9 as stated: a fetched title embedding a
frontmatter block makes the placeholder artifact parseable, so the header
parser does not return none. -/
theorem claim_C9_counterexample :
    md_to_mdx ("") ("x\n---\nupdate_time: 5\n---") 7 100 ("2024-01-01 00:00:00") =
      ("# x\n---\nupdate_time: 5\n---\n\n*No content available*\n") ∧
    extract_update_time_from_mdx
      (md_to_mdx ("") ("x\n---\nupdate_time: 5\n---") 7 100 ("2024-01-01 00:00:00")) =
      some 5 :=
  ⟨rfl, rfl⟩

/-- Claim C10: any input list containing a record without the id key makes
build_category_tree raise KeyError while building the never-again-read
cat_map, before any tree node is constructed — the model returns the
error without building anything, and the tree loop itself never touches
the id field. -/
theorem claim_C10 (records : List CategoryRecord)
    (h : ∃ r ∈ records, r.id = none) :
    build_category_tree records = .error ("KeyError: id") := by
  obtain ⟨r, hmem, hid⟩ := h
  have hall : ¬records.all (fun r => r.id.isSome) = true := by
    intro hall
    have hr := List.all_eq_true.mp hall r hmem
    rw [hid] at hr
    exact absurd hr (by decide)
  unfold build_category_tree
  rw [if_neg hall]

/-- Closed witness for claim C10. -/
theorem claim_C10_witness :
    build_category_tree
      [⟨some 1, 1, 0, "API", 0, 0⟩, ⟨none, 2, 1, "Auth", 500, 100⟩] =
      .error ("KeyError: id") :=
  claim_C10 [⟨some 1, 1, 0, "API", 0, 0⟩, ⟨none, 2, 1, "Auth", 500, 100⟩]
    ⟨⟨none, 2, 1, "Auth", 500, 100⟩, by simp, rfl⟩
